import Mathlib

/-!
Verification of the hottbox core tensor structures (`hottbox/core/structures.py`).

The numeric arrays of the third-party n-dimensional array library are embedded
as a shape together with the element values flattened in column-major
(first-index-fastest) order, over exact integer scalars.  The tensor-algebra
primitives `unfold`, `fold` and `mode_n_product` are imported by the source
from a module that is not part of the provided sources, so they are modelled
from the specification (standard Kolda–Bader conventions).  Everything else is
a direct transcription of `structures.py`.

Python aliasing behaviour (shallow versus deep copies of arrays and of mode
name lists) is modelled separately by a small heap: arrays and name lists are
numbered cells, objects hold cell references, and in-place mutation is a write
at a reference.
-/

namespace Hottbox

/-- Scalar element type of the numeric arrays. -/
abbrev Scalar := Int

/-- An n-dimensional numeric array: the shape together with the element values
flattened in column-major (first-index-fastest) order. -/
structure NpArray where
  shape : List Nat
  vals : List Scalar
  deriving DecidableEq

/-- Column-major (first index fastest) linearization of a multi-index. -/
def fenc : List Nat → List Nat → Nat
  | s :: ss, i :: is => i + s * fenc ss is
  | _, _ => 0

/-- Inverse of `fenc`: decode a flat offset into a multi-index. -/
def fdec : List Nat → Nat → List Nat
  | s :: ss, o => o % s :: fdec ss (o / s)
  | [], _ => []

/-- Element of an array at a multi-index. -/
def NpArray.get (a : NpArray) (idx : List Nat) : Scalar :=
  a.vals.getD (fenc a.shape idx) 0

/-- The array stores exactly one value per position of its shape. -/
def NpArray.wf (a : NpArray) : Prop := a.vals.length = a.shape.prod

instance (a : NpArray) : Decidable a.wf := by
  unfold NpArray.wf; infer_instance

/-- Modelled from the spec: `unfold(array, mode)` of the tensor-algebra
primitives module (absent from the provided sources).  Matricization along
`mode`: rows are the range of dimension `mode`, columns enumerate the
remaining dimensions with the earliest remaining mode varying fastest
(standard Kolda–Bader unfolding). -/
def unfold (a : NpArray) (mode : Nat) : NpArray :=
  let sm := a.shape.getD mode 1
  let rest := a.shape.eraseIdx mode
  ⟨[sm, rest.prod],
    (List.range (sm * rest.prod)).map fun o =>
      a.get (List.insertIdx mode (o % sm) (fdec rest (o / sm)))⟩

/-- Modelled from the spec: `fold(matrix, mode, full_shape)` of the
tensor-algebra primitives module (absent from the provided sources); the exact
inverse of `unfold`.  The error behaviour on mismatched shapes is not
modelled; all uses below are on matching shapes. -/
def fold (m : NpArray) (mode : Nat) (full_shape : List Nat) : NpArray :=
  ⟨full_shape,
    (List.range full_shape.prod).map fun o =>
      let idx := fdec full_shape o
      m.get [idx.getD mode 0, fenc (full_shape.eraseIdx mode) (idx.eraseIdx mode)]⟩

/-- Ordinary matrix product of two 2-D arrays (the boundary library's `dot`),
with the result stored column-major like every other array here. -/
def matmul (a b : NpArray) : NpArray :=
  let m := a.shape.getD 0 0
  let k := a.shape.getD 1 0
  let p := b.shape.getD 1 0
  ⟨[m, p],
    (List.range (m * p)).map fun o =>
      ((List.range k).map fun l => a.get [o % m, l] * b.get [l, o / m]).sum⟩

/-- Modelled from the spec: `mode_n_product(tensor, matrix, mode)` of the
tensor-algebra primitives module (absent from the provided sources): unfold
along `mode`, left-multiply by `matrix`, fold back with dimension `mode`
replaced.  The spec's operational description `matrix @ unfold(tensor, mode)`
forces the new `mode` dimension to be the row count of `matrix` (which is also
what the CP/Tucker reconstruction shapes of the spec require). -/
def mode_n_product (tensor matrix : NpArray) (mode : Nat) : NpArray :=
  fold (matmul matrix (unfold tensor mode)) mode
    (tensor.shape.set mode (matrix.shape.getD 0 0))

/-- Mode-name entry of a `Tensor`: `Tensor.unfold` turns the Python name list
into a two-element list holding a plain string and a nested list of the
remaining names, so an entry is either a string or a grouped list. -/
inductive MName where
  | str (s : String) : MName
  | grp (l : List MName) : MName

/-- The `Tensor` class of `structures.py`: the data array, the shape recorded
at construction (`_orig_shape`) and the mode names (`_mode_names`).  Object
identity and aliasing of the mutable data array and name list are modelled
separately by the heap layer below. -/
structure Tensor where
  data : NpArray
  orig_shape : List Nat
  mode_names : List MName

/-- Default mode names `mode-0`, `mode-1`, ... for an array of the given
number of dimensions. -/
def defaultNames (ndim : Nat) : List MName :=
  (List.range ndim).map fun m => .str ("mode-" ++ toString m)

/-- `Tensor._assign_names`: default names when none are supplied, otherwise
the supplied list after checking its length against the number of dimensions
(the all-entries-are-strings check of the source is enforced by typing here). -/
def assign_names (array : NpArray) (mode_names : Option (List String)) :
    Except String (List MName) :=
  match mode_names with
  | none => .ok (defaultNames array.shape.length)
  | some ns =>
    if array.shape.length ≠ ns.length then
      .error "ValueError: Incorrect number of names for the modes of a tensor"
    else
      .ok (ns.map .str)

/-- The `Tensor` constructor: copy the data array (the copy is by value here;
aliasing is the heap layer's concern), record the original shape, and assign
names. -/
def Tensor.new (array : NpArray) (mode_names : Option (List String)) :
    Except String Tensor := do
  .ok ⟨array, array.shape, ← assign_names array mode_names⟩

/-- Constructing a `Tensor` from an array with default mode names; the path
every internal `Tensor(...)` call of the source takes. -/
def Tensor.ofArray (a : NpArray) : Tensor :=
  ⟨a, a.shape, defaultNames a.shape.length⟩

/-- `Tensor.order`: the number of dimensions of the data array. -/
def Tensor.order (t : Tensor) : Nat := t.data.shape.length

/-- `Tensor.unfold` (value level; the in-place/copy distinction lives in the
heap layer): matricize the data and collapse the name list to
`[names[mode], [remaining names]]`.  The recorded original shape is kept. -/
def Tensor.unfold (t : Tensor) (mode : Nat) : Tensor :=
  ⟨Hottbox.unfold t.data mode, t.orig_shape,
    [t.mode_names.getD mode (.str ""), .grp (t.mode_names.eraseIdx mode)]⟩

/-- `Tensor.fold` (value level): recover the unfolded mode as the position in
the recorded original shape of the current leading dimension (`ValueError`
when absent, as Python's `tuple.index` raises), fold the data back, and
re-insert the row-mode name into the grouped column names (`AttributeError`
when the last name entry is not a grouped list, as `.copy()` on a non-list
raises). -/
def Tensor.fold (t : Tensor) : Except String Tensor :=
  match List.indexOf? (t.data.shape.getD 0 0) t.orig_shape with
  | none => .error "ValueError: tuple.index(x): x not in tuple"
  | some mode =>
    match t.mode_names.getLast? with
    | some (.grp l) =>
      .ok ⟨Hottbox.fold t.data mode t.orig_shape, t.orig_shape,
        List.insertIdx mode (t.mode_names.getD 0 (.str "")) l⟩
    | _ => .error "AttributeError: object has no attribute copy"

/-- `Tensor.mode_n_product` (value level): contract the data with the matrix
and reset the recorded original shape to the new shape; the mode names are
left as they are. -/
def Tensor.mode_n_product (t : Tensor) (matrix : NpArray) (mode : Nat) : Tensor :=
  let d := Hottbox.mode_n_product t.data matrix mode
  ⟨d, d.shape, t.mode_names⟩

/-- The core array of `super_diag_tensor(order, values)`: every dimension
sized to the length of `values`, the value vector on the hyper-diagonal and
zeros elsewhere. -/
def super_diag_core (order : Nat) (values : List Scalar) : NpArray :=
  let rank := values.length
  let shape := List.replicate order rank
  ⟨shape,
    (List.range shape.prod).map fun o =>
      match fdec shape o with
      | [] => 0
      | i :: is => if is.all (· = i) then values.getD i 0 else 0⟩

/-- `super_diag_tensor(order, values=None)` as written in the source: the
length used to size the tensor is read from `values` before the check that
would substitute the default vector of ones, so the `none` case fails with an
attribute error and the default-substitution branch below it is dead. -/
def super_diag_tensor (order : Nat) (values : Option (List Scalar)) :
    Except String Tensor :=
  match values with
  | none =>
    -- `rank = values.size` with `values is None`
    .error "AttributeError: NoneType object has no attribute size"
  | some vs =>
    let rank := vs.length
    -- dead branch of the source: `if values is None: values = np.ones(rank)`
    let vs := if values = none then List.replicate rank (1 : Scalar) else vs
    .ok (Tensor.ofArray (super_diag_core order vs))

/-- The value `super_diag_tensor` produces whenever `values` is supplied,
which is the only reachable outcome. -/
def super_diag_tensor_some (order : Nat) (values : List Scalar) : Tensor :=
  Tensor.ofArray (super_diag_core order values)

/-- The `TensorCPD` class: factor matrices and the super-diagonal core
coefficients (a 1-D array, embedded as its value list). -/
structure TensorCPD where
  fmat : List NpArray
  core_values : List Scalar
  deriving DecidableEq

/-- `TensorCPD.order`: the number of factor matrices. -/
def TensorCPD.order (c : TensorCPD) : Nat := c.fmat.length

/-- `TensorCPD.rank`: the 1-tuple holding the column count of the first
factor matrix. -/
def TensorCPD.rank (c : TensorCPD) : List Nat :=
  [(c.fmat.getD 0 ⟨[], []⟩).shape.getD 1 0]

/-- `TensorCPD.core`: the super-diagonal core tensor built from the stored
coefficients. -/
def TensorCPD.core (c : TensorCPD) : Tensor :=
  super_diag_tensor_some c.order c.core_values

/-- The reconstruction loop shared by `TensorCPD.reconstruct` and
`TensorTKD.reconstruct`: `for mode, fmat in enumerate(self.fmat):
tensor.mode_n_product(fmat, mode=mode, inplace=True)`. -/
def md_chain (t : Tensor) : List NpArray → Nat → Tensor
  | [], _ => t
  | f :: fs, k => md_chain (t.mode_n_product f k) fs (k + 1)

/-- `TensorCPD.reconstruct`: the core tensor with every factor matrix applied
by a mode-n product, mode 0 through order−1. -/
def TensorCPD.reconstruct (c : TensorCPD) : Tensor :=
  md_chain c.core c.fmat 0

/-- The `TensorTKD` class: factor matrices and a dense core array. -/
structure TensorTKD where
  fmat : List NpArray
  core_values : NpArray
  deriving DecidableEq

/-- `TensorTKD.order`: the number of factor matrices. -/
def TensorTKD.order (c : TensorTKD) : Nat := c.fmat.length

/-- `TensorTKD.rank`: the tuple of the factor matrices' column counts. -/
def TensorTKD.rank (c : TensorTKD) : List Nat :=
  c.fmat.map fun f => f.shape.getD 1 0

/-- `TensorTKD.core`: the stored core array wrapped as a `Tensor`. -/
def TensorTKD.core (c : TensorTKD) : Tensor := Tensor.ofArray c.core_values

/-- `TensorTKD.reconstruct`: same loop as the CP reconstruction. -/
def TensorTKD.reconstruct (c : TensorTKD) : Tensor :=
  md_chain c.core c.fmat 0

/-- The `TensorTT` class: the list of 3-D cores and the target full shape. -/
structure TensorTT where
  core_values : List NpArray
  full_shape : List Nat
  deriving DecidableEq

/-- `TensorTT.order`: the number of cores. -/
def TensorTT.order (t : TensorTT) : Nat := t.core_values.length

/-- `TensorTT.rank`: the last dimension of every core except the final one. -/
def TensorTT.rank (t : TensorTT) : List Nat :=
  t.core_values.dropLast.map fun c => c.shape.getLast?.getD 0

/-- `TensorTT.core(i)`: the i-th core wrapped as a `Tensor`. -/
def TensorTT.core (t : TensorTT) (i : Nat) : Tensor :=
  Tensor.ofArray (t.core_values.getD i ⟨[], []⟩)

/-- The loop of `TensorTT.reconstruct` over `self.cores[1:]`: reshape the
core column-major to `(rank[i], rank[i+1]*full_shape[i+1])`, reshape the
accumulator column-major to `rank[i]` columns, and take the matrix product.
A column-major reshape of an array stored column-major only relabels the
shape, so a reshape is a shape replacement here. -/
def tt_loop (rank fs : List Nat) : NpArray → List NpArray → Nat → NpArray
  | data, [], _ => data
  | data, core :: rest, i =>
    let r := rank.getD i 0
    let core_flat : NpArray := ⟨[r, rank.getD (i + 1) 0 * fs.getD (i + 1) 0], core.vals⟩
    let data2 : NpArray := ⟨[data.vals.length / r, r], data.vals⟩
    tt_loop rank fs (matmul data2 core_flat) rest (i + 1)

/-- `TensorTT.reconstruct`: the sequential matrix-chain contraction of the
cores, finally reshaped column-major into the full shape. -/
def TensorTT.reconstruct (t : TensorTT) : Tensor :=
  let rank := t.rank ++ [1]
  let data := t.core_values.headD ⟨[], []⟩
  let result := tt_loop rank t.full_shape data (t.core_values.drop 1) 0
  Tensor.ofArray ⟨t.full_shape, result.vals⟩

/-- Element-wise subtraction of two same-shaped arrays (the boundary
library's `-`; broadcasting between different shapes is not modelled). -/
def np_sub (a b : NpArray) : NpArray :=
  ⟨a.shape, List.zipWith (· - ·) a.vals b.vals⟩

/-- The possible second arguments of `residual_tensor`: one of the four
supported container classes, or any other Python value. -/
inductive TensorBArg where
  | dense (t : Tensor) : TensorBArg
  | cpd (c : TensorCPD) : TensorBArg
  | tkd (c : TensorTKD) : TensorBArg
  | tt (c : TensorTT) : TensorBArg
  | other (desc : String) : TensorBArg

/-- `residual_tensor(tensor_A, tensor_B)`: subtract the data (or the
reconstruction's data for a decomposition container) and wrap the result;
any other argument type is rejected. -/
def residual_tensor (tensor_A : Tensor) (tensor_B : TensorBArg) :
    Except String Tensor :=
  match tensor_B with
  | .cpd c => .ok (Tensor.ofArray (np_sub tensor_A.data c.reconstruct.data))
  | .tkd c => .ok (Tensor.ofArray (np_sub tensor_A.data c.reconstruct.data))
  | .tt c => .ok (Tensor.ofArray (np_sub tensor_A.data c.reconstruct.data))
  | .dense t => .ok (Tensor.ofArray (np_sub tensor_A.data t.data))
  | .other _ => .error "TypeError: Unknown data type of the approximation"

/-- A Python value appearing as a value of the `rename_modes` mapping:
either an integer or a value of any other type. -/
inductive PyVal where
  | vint (i : Int) : PyVal
  | vother (desc : String) : PyVal
  deriving DecidableEq

/-- The validation loop of `Tensor.rename_modes`: for each mapping value in
order, a non-integer raises a type error, an integer above the order raises a
value error, then a negative integer raises a value error. -/
def rename_validate (order : Nat) : List PyVal → Option String
  | [] => none
  | v :: vs =>
    match v with
    | .vother _ => some "TypeError: All values of the dictionary should be integers."
    | .vint i =>
      if i > (order : Int) then
        some "ValueError: All specified modes should not exceed the order of the tensor."
      else if i < 0 then
        some "ValueError: All specified modes should be non-negative."
      else rename_validate order vs

/-- The write loop of `Tensor.rename_modes`: `self._mode_names[mode] = name`
for each mapping item, which raises an index error when the (validated,
non-negative) index is not below the length of the name list.  The result is
the name list at the moment the loop stops together with the error, if any. -/
def rename_write (names : List MName) : List (String × PyVal) → List MName × Option String
  | [] => (names, none)
  | (name, .vint i) :: rest =>
    if i.toNat < names.length then
      rename_write (names.set i.toNat (.str name)) rest
    else
      (names, some "IndexError: list assignment index out of range")
  | (_, .vother _) :: _ =>
    -- unreachable after a successful validation pass
    (names, some "TypeError: list indices must be integers")

/-- `Tensor.rename_modes`: validate every mapping value first, then overwrite
the names; on a validation error nothing is written. -/
def rename_modes (order : Nat) (names : List MName) (mapping : List (String × PyVal)) :
    List MName × Option String :=
  match rename_validate order (mapping.map Prod.snd) with
  | some e => (names, some e)
  | none => rename_write names mapping

/-- The heap of mutable Python objects the claims about aliasing need: the
numeric arrays and the mode-name lists, each addressed by an index.  Fresh
objects are appended at the end. -/
structure Heap where
  arrs : List NpArray
  lists : List (List MName)

/-- Contents of the array cell at a reference. -/
def Heap.arr (h : Heap) (r : Nat) : NpArray := h.arrs.getD r ⟨[], []⟩

/-- Contents of the name-list cell at a reference. -/
def Heap.names (h : Heap) (r : Nat) : List MName := h.lists.getD r []

/-- Allocate a fresh array cell. -/
def Heap.allocArr (h : Heap) (a : NpArray) : Heap × Nat :=
  (⟨h.arrs ++ [a], h.lists⟩, h.arrs.length)

/-- Allocate a fresh name-list cell. -/
def Heap.allocList (h : Heap) (l : List MName) : Heap × Nat :=
  (⟨h.arrs, h.lists ++ [l]⟩, h.lists.length)

/-- In-place mutation of the array object at a reference (this covers writes
such as `tensor.data[i] = v`: the cell keeps its identity, its contents
change). -/
def Heap.writeArr (h : Heap) (r : Nat) (a : NpArray) : Heap :=
  ⟨h.arrs.set r a, h.lists⟩

/-- In-place mutation of the name-list object at a reference. -/
def Heap.writeList (h : Heap) (r : Nat) (l : List MName) : Heap :=
  ⟨h.arrs, h.lists.set r l⟩

/-- A `Tensor` object: references to its mutable data array and mode-name
list, and the immutable original-shape tuple held by value. -/
structure TensorObj where
  dataRef : Nat
  orig_shape : List Nat
  namesRef : Nat
  deriving DecidableEq

/-- The references of the object point at allocated cells. -/
def TensorObj.wfIn (t : TensorObj) (h : Heap) : Prop :=
  t.dataRef < h.arrs.length ∧ t.namesRef < h.lists.length

/-- The value-level `Tensor` an object denotes in a heap. -/
def TensorObj.val (h : Heap) (t : TensorObj) : Tensor :=
  ⟨h.arr t.dataRef, t.orig_shape, h.names t.namesRef⟩

/-- `Tensor.copy`: `cls.__new__` followed by `__dict__.update` copies the
attribute values only, so the new object shares the data array and the
mode-name list of the receiver. -/
def TensorObj.copy (t : TensorObj) : TensorObj :=
  ⟨t.dataRef, t.orig_shape, t.namesRef⟩

/-- The `Tensor` constructor at heap level: `self._data = array.copy()`
allocates a fresh array holding a copy of the argument's contents, and the
name list built by `_assign_names` is a fresh list object. -/
def tensor_newH (h : Heap) (a : NpArray) (names : List MName) : Heap × TensorObj :=
  let p := h.allocArr a
  let q := p.1.allocList names
  (q.1, ⟨p.2, a.shape, q.2⟩)

/-- `Tensor.unfold` at heap level: with `inplace=False` the receiver is
shallow-copied first; either way the data attribute is rebound to a freshly
allocated result array and the name attribute to a freshly allocated
two-element list, so the receiver's cells are never written. -/
def TensorObj.unfoldH (h : Heap) (t : TensorObj) (mode : Nat) (inplace : Bool) :
    Heap × TensorObj :=
  let tensor := if inplace then t else t.copy
  let p := h.allocArr (unfold (h.arr t.dataRef) mode)
  let old := h.names t.namesRef
  let q := p.1.allocList [old.getD mode (.str ""), .grp (old.eraseIdx mode)]
  (q.1, ⟨p.2, tensor.orig_shape, q.2⟩)

/-- `Tensor.fold` at heap level: on success the data and name attributes are
rebound to fresh cells; on failure (`none`) no cell of the receiver has been
written either. -/
def TensorObj.foldH (h : Heap) (t : TensorObj) (inplace : Bool) :
    Heap × Option TensorObj :=
  let tensor := if inplace then t else t.copy
  match List.indexOf? ((h.arr t.dataRef).shape.getD 0 0) t.orig_shape with
  | none => (h, none)
  | some mode =>
    let p := h.allocArr (fold (h.arr t.dataRef) mode t.orig_shape)
    let old := h.names t.namesRef
    match old.getLast? with
    | some (.grp l) =>
      let q := p.1.allocList (List.insertIdx mode (old.getD 0 (.str "")) l)
      (q.1, some ⟨p.2, tensor.orig_shape, q.2⟩)
    | _ => (p.1, none)

/-- `Tensor.mode_n_product` at heap level: the data attribute is rebound to a
freshly allocated result array, but the mode-name attribute is left alone, so
the result object shares the receiver's name list. -/
def TensorObj.mode_n_productH (h : Heap) (t : TensorObj) (matrix : NpArray)
    (mode : Nat) (inplace : Bool) : Heap × TensorObj :=
  let tensor := if inplace then t else t.copy
  let d := mode_n_product (h.arr tensor.dataRef) matrix mode
  let p := h.allocArr d
  (p.1, ⟨p.2, d.shape, tensor.namesRef⟩)

/-- `Tensor.rename_modes` at heap level: the name list object of the receiver
is mutated in place. -/
def TensorObj.rename_modesH (h : Heap) (t : TensorObj)
    (mapping : List (String × PyVal)) : Heap × Option String :=
  let order := (h.arr t.dataRef).shape.length
  let r := rename_modes order (h.names t.namesRef) mapping
  (h.writeList t.namesRef r.1, r.2)

/-- A `TensorCPD` object: `fmat.copy()` is a shallow list copy, so the stored
factor list holds the caller's array objects themselves, while
`core_values.copy()` is an array copy placed in a fresh cell. -/
structure TensorCPDObj where
  fmatRefs : List Nat
  coreValsRef : Nat
  deriving DecidableEq

/-- The `TensorCPD` constructor at heap level. -/
def tensorCPD_initH (h : Heap) (fmat : List Nat) (core_values : Nat) :
    Heap × TensorCPDObj :=
  let p := h.allocArr (h.arr core_values)
  (p.1, ⟨fmat, p.2⟩)

/-- The value-level `TensorCPD` an object denotes in a heap (the stored
1-D coefficient array read off as its value list). -/
def TensorCPDObj.val (h : Heap) (c : TensorCPDObj) : TensorCPD :=
  ⟨c.fmatRefs.map (h.arr ·), (h.arr c.coreValsRef).vals⟩

/-- `TensorCPD.core` at heap level: `super_diag_tensor` builds a fresh zeros
array and wraps it in a fresh `Tensor`, so the returned tensor's data cell is
new. -/
def TensorCPDObj.coreH (h : Heap) (c : TensorCPDObj) : Heap × TensorObj :=
  let core := super_diag_core c.fmatRefs.length (h.arr c.coreValsRef).vals
  tensor_newH h core (defaultNames core.shape.length)

/-- A `TensorTKD` object; the constructor is identical in kind to the CP
one (shallow factor-list copy, array copy of the dense core). -/
structure TensorTKDObj where
  fmatRefs : List Nat
  coreValsRef : Nat
  deriving DecidableEq

/-- The `TensorTKD` constructor at heap level. -/
def tensorTKD_initH (h : Heap) (fmat : List Nat) (core_values : Nat) :
    Heap × TensorTKDObj :=
  let p := h.allocArr (h.arr core_values)
  (p.1, ⟨fmat, p.2⟩)

/-- The value-level `TensorTKD` an object denotes in a heap. -/
def TensorTKDObj.val (h : Heap) (c : TensorTKDObj) : TensorTKD :=
  ⟨c.fmatRefs.map (h.arr ·), h.arr c.coreValsRef⟩

/-- `TensorTKD.core` at heap level: `Tensor(self._core_values)` copies the
stored array into a fresh cell. -/
def TensorTKDObj.coreH (h : Heap) (c : TensorTKDObj) : Heap × TensorObj :=
  let a := h.arr c.coreValsRef
  tensor_newH h a (defaultNames a.shape.length)

/-- A `TensorTT` object: `core_values.copy()` is a shallow list copy, so the
stored core list holds the caller's array objects themselves. -/
structure TensorTTObj where
  coreRefs : List Nat
  full_shape : List Nat
  deriving DecidableEq

/-- The `TensorTT` constructor at heap level. -/
def tensorTT_initH (h : Heap) (core_values : List Nat) (full_shape : List Nat) :
    Heap × TensorTTObj :=
  (h, ⟨core_values, full_shape⟩)

/-- The value-level `TensorTT` an object denotes in a heap. -/
def TensorTTObj.val (h : Heap) (c : TensorTTObj) : TensorTT :=
  ⟨c.coreRefs.map (h.arr ·), c.full_shape⟩

/-- `TensorTT.core(i)` at heap level: `Tensor(self._core_values[i])` copies
the i-th stored core into a fresh cell. -/
def TensorTTObj.coreH (h : Heap) (c : TensorTTObj) (i : Nat) : Heap × TensorObj :=
  let a := h.arr (c.coreRefs.getD i 0)
  tensor_newH h a (defaultNames a.shape.length)

/-! Helper lemmas about the column-major index encoding. -/

theorem fdec_length (s : List Nat) (o : Nat) : (fdec s o).length = s.length := by
  induction s generalizing o with
  | nil => simp [fdec]
  | cons a ss ih => simp [fdec, ih]

theorem fdec_forall2 (s : List Nat) (o : Nat) (h : o < s.prod) :
    List.Forall₂ (· < ·) (fdec s o) s := by
  induction s generalizing o with
  | nil => simp [fdec]
  | cons a ss ih =>
    have ha : 0 < a := by
      rcases Nat.eq_zero_or_pos a with h0 | h0
      · simp [h0] at h
      · exact h0
    have hdiv : o / a < ss.prod := by
      rw [Nat.div_lt_iff_lt_mul ha]
      calc o < (a :: ss).prod := h
        _ = ss.prod * a := by simp [List.prod_cons, Nat.mul_comm]
    exact List.Forall₂.cons (Nat.mod_lt o ha) (ih _ hdiv)

theorem fenc_fdec (s : List Nat) (o : Nat) (h : o < s.prod) :
    fenc s (fdec s o) = o := by
  induction s generalizing o with
  | nil =>
    simp [List.prod_nil] at h
    simp [fdec, fenc, h]
  | cons a ss ih =>
    have ha : 0 < a := by
      rcases Nat.eq_zero_or_pos a with h0 | h0
      · simp [h0] at h
      · exact h0
    have hdiv : o / a < ss.prod := by
      rw [Nat.div_lt_iff_lt_mul ha]
      calc o < (a :: ss).prod := h
        _ = ss.prod * a := by simp [List.prod_cons, Nat.mul_comm]
    simp only [fdec, fenc, ih _ hdiv]
    exact Nat.mod_add_div o a

theorem fdec_fenc {idx s : List Nat} (h : List.Forall₂ (· < ·) idx s) :
    fdec s (fenc s idx) = idx := by
  induction h with
  | nil => simp [fdec, fenc]
  | cons hab hrest ih =>
    rename_i i a is ss
    have ha : 0 < a := Nat.lt_of_le_of_lt (Nat.zero_le i) hab
    simp only [fenc, fdec]
    have h1 : (i + a * fenc ss is) % a = i := by
      rw [Nat.add_mul_mod_self_left, Nat.mod_eq_of_lt hab]
    have h2 : (i + a * fenc ss is) / a = fenc ss is := by
      rw [Nat.add_mul_div_left _ _ ha, Nat.div_eq_of_lt hab, Nat.zero_add]
    rw [h1, h2, ih]

theorem fenc_lt {idx s : List Nat} (h : List.Forall₂ (· < ·) idx s) :
    fenc s idx < s.prod := by
  induction h with
  | nil => simp [fenc]
  | cons hab hrest ih =>
    rename_i i a is ss
    simp only [fenc, List.prod_cons]
    calc i + a * fenc ss is < a + a * fenc ss is := by omega
      _ = a * (fenc ss is + 1) := by ring
      _ ≤ a * ss.prod := Nat.mul_le_mul_left a ih

theorem forall2_eraseIdx {r : Nat → Nat → Prop} {l s : List Nat}
    (h : List.Forall₂ r l s) : ∀ n, List.Forall₂ r (l.eraseIdx n) (s.eraseIdx n) := by
  induction h with
  | nil => intro n; simp [List.eraseIdx]
  | cons hab hrest ih =>
    intro n
    cases n with
    | zero => simpa [List.eraseIdx] using hrest
    | succ m => simpa [List.eraseIdx] using List.Forall₂.cons hab (ih m)

theorem insertIdx_eraseIdx_getD {α : Type} (d : α) :
    ∀ (l : List α) (m : Nat), m < l.length →
      (l.eraseIdx m).insertIdx m (l.getD m d) = l := by
  intro l
  induction l with
  | nil => intro m h; simp at h
  | cons a t ih =>
    intro m h
    cases m with
    | zero => simp [List.eraseIdx, List.insertIdx, List.getD]
    | succ k =>
      have hk : k < t.length := by simpa using h
      simp only [List.eraseIdx, List.insertIdx_succ_cons, List.getD_cons_succ]
      rw [ih k hk]

theorem getD_map_range {α : Type} (g : Nat → α) (d : α) (n k : Nat) (h : k < n) :
    ((List.range n).map g).getD k d = g k := by
  have hlen : k < ((List.range n).map g).length := by simpa using h
  rw [List.getD_eq_getElem _ _ hlen, List.getElem_map, List.getElem_range]

theorem map_range_getD (l : List Scalar) (n : Nat) (h : l.length = n) :
    (List.range n).map (fun o => l.getD o 0) = l := by
  apply List.ext_getElem
  · simp [h]
  · intro k h1 h2
    simp only [List.getElem_map, List.getElem_range]
    rw [List.getD_eq_getElem _ _ h2]

theorem forall2_getElem {l s : List Nat} (h : List.Forall₂ (· < ·) l s)
    (m : Nat) (hm : m < l.length) (hm' : m < s.length) : l[m] < s[m] := by
  rw [List.forall₂_iff_get] at h
  exact h.2 m hm hm'

/-- The unfold/fold round trip on the modelled primitives: for a well-formed
array and a mode in range, folding the mode-n unfolding back over the
original shape restores the array exactly. -/
theorem unfold_get (a : NpArray) (m r c : Nat)
    (hr : r < a.shape.getD m 1) (hc : c < (a.shape.eraseIdx m).prod) :
    (unfold a m).get [r, c] =
      a.get (List.insertIdx m r (fdec (a.shape.eraseIdx m) c)) := by
  have hsm0 : 0 < a.shape.getD m 1 := Nat.lt_of_le_of_lt (Nat.zero_le r) hr
  have henc : fenc [a.shape.getD m 1, (a.shape.eraseIdx m).prod] [r, c] =
      r + a.shape.getD m 1 * c := by
    simp [fenc]
  have hofs : r + a.shape.getD m 1 * c <
      a.shape.getD m 1 * (a.shape.eraseIdx m).prod := by
    calc r + a.shape.getD m 1 * c < a.shape.getD m 1 + a.shape.getD m 1 * c := by omega
      _ = a.shape.getD m 1 * (c + 1) := by ring
      _ ≤ a.shape.getD m 1 * (a.shape.eraseIdx m).prod := Nat.mul_le_mul_left _ hc
  show NpArray.get ⟨_, _⟩ [r, c] = _
  simp only [NpArray.get, henc]
  rw [getD_map_range _ _ _ _ hofs]
  have hmod : (r + a.shape.getD m 1 * c) % a.shape.getD m 1 = r := by
    rw [Nat.add_mul_mod_self_left, Nat.mod_eq_of_lt hr]
  have hdiv : (r + a.shape.getD m 1 * c) / a.shape.getD m 1 = c := by
    rw [Nat.add_mul_div_left _ _ hsm0, Nat.div_eq_of_lt hr, Nat.zero_add]
  rw [hmod, hdiv]

/-- The unfold/fold round trip on the modelled primitives: for a well-formed
array and a mode in range, folding the mode-n unfolding back over the
original shape restores the array exactly. -/
theorem fold_unfold (a : NpArray) (m : Nat) (hw : a.wf) (hm : m < a.shape.length) :
    fold (unfold a m) m a.shape = a := by
  rcases a with ⟨s, v⟩
  simp only [NpArray.wf] at hw
  simp only at hm
  unfold fold
  congr 1
  apply List.ext_getElem
  · simpa using hw.symm
  intro o h1 h2
  have ho : o < s.prod := by simpa using h1
  have hov : o < v.length := h2
  simp only [List.getElem_map, List.getElem_range]
  have hf2 : List.Forall₂ (· < ·) (fdec s o) s := fdec_forall2 s o ho
  have hlen : (fdec s o).length = s.length := fdec_length s o
  have hidxm : m < (fdec s o).length := by omega
  have hrval : (fdec s o).getD m 0 = (fdec s o)[m] := List.getD_eq_getElem _ _ hidxm
  have hrlt : (fdec s o).getD m 0 < s.getD m 1 := by
    rw [hrval, List.getD_eq_getElem s 1 hm]
    exact forall2_getElem hf2 m hidxm hm
  have hc2 : List.Forall₂ (· < ·) ((fdec s o).eraseIdx m) (s.eraseIdx m) :=
    forall2_eraseIdx hf2 m
  have hclt : fenc (s.eraseIdx m) ((fdec s o).eraseIdx m) < (s.eraseIdx m).prod :=
    fenc_lt hc2
  rw [unfold_get ⟨s, v⟩ m _ _ hrlt hclt]
  rw [fdec_fenc hc2]
  rw [insertIdx_eraseIdx_getD 0 (fdec s o) m hidxm]
  simp only [NpArray.get]
  rw [fenc_fdec s o ho]
  exact List.getD_eq_getElem _ _ hov

theorem forall2_replicate {i R : Nat} (h : i < R) (n : Nat) :
    List.Forall₂ (· < ·) (List.replicate n i) (List.replicate n R) := by
  induction n with
  | zero => simp
  | succ k ih =>
    simp only [List.replicate_succ]
    exact List.Forall₂.cons h ih

/-- Element access on the super-diagonal core: in range, it is the stored
coefficient on the hyper-diagonal and zero elsewhere. -/
theorem super_diag_get_cons (order : Nat) (values : List Scalar) (i : Nat)
    (is : List Nat)
    (hidx : List.Forall₂ (· < ·) (i :: is) (List.replicate order values.length)) :
    (super_diag_core order values).get (i :: is) =
      if is.all (· = i) then values.getD i 0 else 0 := by
  unfold super_diag_core NpArray.get
  simp only
  rw [getD_map_range _ _ _ _ (fenc_lt hidx)]
  rw [fdec_fenc hidx]

theorem np_sub_get (a b : NpArray) (ha : a.wf) (hb : b.wf) (hs : b.shape = a.shape)
    (idx : List Nat) (hidx : List.Forall₂ (· < ·) idx a.shape) :
    (np_sub a b).get idx = a.get idx - b.get idx := by
  have hofs : fenc a.shape idx < a.shape.prod := fenc_lt hidx
  have hav : fenc a.shape idx < a.vals.length := by rw [ha]; exact hofs
  have hbv : fenc a.shape idx < b.vals.length := by rw [hb, hs]; exact hofs
  have hzl : fenc a.shape idx < (List.zipWith (· - ·) a.vals b.vals).length := by
    simp [List.length_zipWith]; omega
  simp only [np_sub, NpArray.get, hs]
  rw [List.getD_eq_getElem _ _ hzl, List.getD_eq_getElem _ _ hav,
    List.getD_eq_getElem _ _ hbv, List.getElem_zipWith]

/-- A mapping value `rename_modes` accepts: an integer between 0 and the
order (inclusive on both ends, as the source's non-strict bound has it). -/
def ok_val (order : Nat) (v : PyVal) : Bool :=
  match v with
  | .vint i => 0 ≤ i && i ≤ (order : Int)
  | .vother _ => false

theorem rename_validate_append (order : Nat) (pre rest : List PyVal)
    (hpre : ∀ v ∈ pre, ok_val order v = true) :
    rename_validate order (pre ++ rest) = rename_validate order rest := by
  induction pre with
  | nil => simp
  | cons v vs ih =>
    have hv : ok_val order v = true := hpre v (by simp)
    cases v with
    | vother d => simp [ok_val] at hv
    | vint i =>
      simp only [ok_val, Bool.and_eq_true, decide_eq_true_eq] at hv
      simp only [List.cons_append, rename_validate]
      rw [if_neg (by omega), if_neg (by omega)]
      exact ih fun u hu => hpre u (by simp [hu])

theorem set_append_cons {α : Type} (A : List α) (b x : α) (B : List α) :
    (A ++ b :: B).set A.length x = A ++ x :: B := by
  induction A with
  | nil => simp
  | cons a t ih => simp [List.set, ih]

theorem set_append_cons_at {α : Type} (A : List α) (b x : α) (B : List α)
    (k : Nat) (hk : k = A.length) : (A ++ b :: B).set k x = A ++ x :: B := by
  subst hk
  exact set_append_cons A b x B

theorem indexOf?_getElem_nodup {l : List Nat} (h : l.Nodup) (i : Nat)
    (hi : i < l.length) : List.indexOf? l[i] l = some i := by
  have hmem : l[i] ∈ l := List.getElem_mem hi
  have hidx : List.indexOf l[i] l = i := List.indexOf_getElem h i hi
  have heq := List.indexOf_eq_indexOf? l[i] l
  cases hio : List.indexOf? l[i] l with
  | none =>
    rw [List.indexOf?_eq_none_iff] at hio
    have hcontra := hio l[i] hmem
    simp at hcontra
  | some j =>
    rw [hio] at heq
    simp only at heq
    rw [hidx] at heq
    rw [heq]

/-! The claims. -/

/-- C9: calling `super_diag_tensor` with `values` omitted always fails with
the missing-attribute error, because the rank is read from `values` before
the check that would substitute the default vector of ones; the documented
defaulting behaviour is unreachable. -/
theorem claim_C9_super_diag_missing_values (order : Nat) :
    super_diag_tensor order none =
      .error "AttributeError: NoneType object has no attribute size" := rfl

/-- C6: `super_diag_tensor(order, values)` with `values` supplied builds a
tensor of the given order whose dimensions all equal the number of
coefficients, holding the coefficients on the hyper-diagonal and zero at
every other in-range position. -/
theorem claim_C6_super_diag_tensor (order R : Nat) (values : List Scalar)
    (hord : 1 ≤ order) (hR : values.length = R) :
    super_diag_tensor order (some values) =
      .ok (super_diag_tensor_some order values) ∧
    (super_diag_tensor_some order values).data.shape = List.replicate order R ∧
    (∀ i, i < R →
      (super_diag_tensor_some order values).data.get (List.replicate order i) =
        values.getD i 0) ∧
    (∀ idx, List.Forall₂ (· < ·) idx (List.replicate order R) →
      (∀ i, idx ≠ List.replicate order i) →
      (super_diag_tensor_some order values).data.get idx = 0) := by
  subst hR
  refine ⟨rfl, rfl, ?_, ?_⟩
  · intro i hi
    rcases order with _ | k
    · omega
    have hidx : List.Forall₂ (· < ·) (List.replicate (k + 1) i)
        (List.replicate (k + 1) values.length) := forall2_replicate hi (k + 1)
    rw [show (super_diag_tensor_some (k + 1) values).data = super_diag_core (k + 1) values from rfl]
    rw [List.replicate_succ]
    rw [super_diag_get_cons (k + 1) values i (List.replicate k i)
      (by rw [← List.replicate_succ]; exact hidx)]
    rw [if_pos]
    simp [List.all_eq_true, List.mem_replicate]
  · intro idx hidx hnd
    rw [show (super_diag_tensor_some order values).data = super_diag_core order values from rfl]
    have hlen : idx.length = order := by
      rw [List.forall₂_iff_get] at hidx
      simpa using hidx.1
    cases idx with
    | nil => simp at hlen; omega
    | cons i is =>
      rw [super_diag_get_cons order values i is hidx]
      rw [if_neg]
      intro hall
      apply hnd i
      rw [List.eq_replicate_iff]
      refine ⟨hlen, ?_⟩
      intro b hb
      rw [List.mem_cons] at hb
      rcases hb with hb | hb
      · exact hb
      · have := (List.all_eq_true.mp hall) b hb
        simpa using this

/-- C6 witness: the spec's instance `super_diag_tensor(3, values=[1,2])`, a
2×2×2 tensor with 1 and 2 on the diagonal and zeros elsewhere. -/
theorem claim_C6_super_diag_tensor_witness :
    (super_diag_tensor_some 3 [1, 2]).data.shape = List.replicate 3 2 ∧
    (super_diag_tensor_some 3 [1, 2]).data.get [0, 0, 0] = 1 ∧
    (super_diag_tensor_some 3 [1, 2]).data.get [1, 1, 1] = 2 ∧
    (super_diag_tensor_some 3 [1, 2]).data.get [0, 1, 1] = 0 := by
  have h := claim_C6_super_diag_tensor 3 2 [1, 2] (by decide) (by decide)
  refine ⟨h.2.1, ?_, ?_, ?_⟩
  · exact h.2.2.1 0 (by decide)
  · exact h.2.2.1 1 (by decide)
  · exact h.2.2.2 [0, 1, 1] (by decide)
      (by intro i h; cases i <;> simp_all [List.replicate])

/-- C5: `residual_tensor` subtracts the dense data for a dense second
argument, subtracts the reconstruction's data for each of the three
decomposition containers, errors exactly on any other argument type, and the
wrapped data is the element-wise difference. -/
theorem claim_C5_residual_tensor (A Bd : Tensor) (c1 : TensorCPD)
    (c2 : TensorTKD) (c3 : TensorTT) (d : String) :
    residual_tensor A (.dense Bd) = .ok (Tensor.ofArray (np_sub A.data Bd.data)) ∧
    residual_tensor A (.cpd c1) =
      .ok (Tensor.ofArray (np_sub A.data c1.reconstruct.data)) ∧
    residual_tensor A (.tkd c2) =
      .ok (Tensor.ofArray (np_sub A.data c2.reconstruct.data)) ∧
    residual_tensor A (.tt c3) =
      .ok (Tensor.ofArray (np_sub A.data c3.reconstruct.data)) ∧
    residual_tensor A (.other d) =
      .error "TypeError: Unknown data type of the approximation" ∧
    (∀ b : NpArray, A.data.wf → b.wf → b.shape = A.data.shape →
      ∀ idx, List.Forall₂ (· < ·) idx A.data.shape →
        (np_sub A.data b).get idx = A.data.get idx - b.get idx) := by
  refine ⟨rfl, rfl, rfl, rfl, rfl, ?_⟩
  intro b ha hb hs idx hidx
  exact np_sub_get A.data b ha hb hs idx hidx

/-- C5 witness: the element-wise difference at a concrete pair of 2×2
tensors. -/
theorem claim_C5_residual_tensor_witness :
    (np_sub (Tensor.ofArray ⟨[2, 2], [5, 6, 7, 8]⟩).data ⟨[2, 2], [1, 2, 3, 4]⟩).get [1, 0] = 4 := by
  have h := (claim_C5_residual_tensor (Tensor.ofArray ⟨[2, 2], [5, 6, 7, 8]⟩)
    (Tensor.ofArray ⟨[2, 2], [1, 2, 3, 4]⟩) ⟨[], []⟩ ⟨[], ⟨[], []⟩⟩ ⟨[], []⟩ "set").2.2.2.2.2
  have := h ⟨[2, 2], [1, 2, 3, 4]⟩ (by decide) (by decide) (by decide)
    [1, 0] (by decide)
  rw [this]
  decide

/-- C8: `rename_modes` validates every mapping value before writing any name:
with every value an in-range integer the validation passes (a value equal to
the order passes, although it is out of range for the name list), the first
offending value determines the error — a type error for a non-integer, a
value error for an integer above the order or below zero — and on any
validation error the names are returned unchanged. -/
theorem claim_C8_rename_modes_validation (order : Nat) (names : List MName) :
    (∀ mapping : List (String × PyVal),
      (∀ v ∈ mapping.map Prod.snd, ok_val order v = true) →
      rename_validate order (mapping.map Prod.snd) = none) ∧
    (∀ (pre post : List PyVal) (d : String) (mapping : List (String × PyVal)),
      mapping.map Prod.snd = pre ++ .vother d :: post →
      (∀ v ∈ pre, ok_val order v = true) →
      rename_modes order names mapping =
        (names, some "TypeError: All values of the dictionary should be integers.")) ∧
    (∀ (pre post : List PyVal) (i : Int) (mapping : List (String × PyVal)),
      mapping.map Prod.snd = pre ++ .vint i :: post →
      (∀ v ∈ pre, ok_val order v = true) →
      (order : Int) < i →
      rename_modes order names mapping =
        (names, some "ValueError: All specified modes should not exceed the order of the tensor.")) ∧
    (∀ (pre post : List PyVal) (i : Int) (mapping : List (String × PyVal)),
      mapping.map Prod.snd = pre ++ .vint i :: post →
      (∀ v ∈ pre, ok_val order v = true) →
      i < 0 →
      rename_modes order names mapping =
        (names, some "ValueError: All specified modes should be non-negative.")) ∧
    ok_val order (.vint (order : Int)) = true := by
  refine ⟨?_, ?_, ?_, ?_, by simp [ok_val]⟩
  · intro mapping hall
    induction mapping with
    | nil => rfl
    | cons p rest ih =>
      have hv : ok_val order p.2 = true := hall p.2 (by simp)
      cases hp : p.2 with
      | vother d => rw [hp] at hv; simp [ok_val] at hv
      | vint i =>
        rw [hp] at hv
        simp only [ok_val, Bool.and_eq_true, decide_eq_true_eq] at hv
        simp only [List.map_cons, rename_validate, hp]
        rw [if_neg (by omega), if_neg (by omega)]
        exact ih fun u hu => hall u (by simp [hu])
  · intro pre post d mapping hsplit hpre
    unfold rename_modes
    rw [hsplit, rename_validate_append order pre _ hpre]
    rfl
  · intro pre post i mapping hsplit hpre hgt
    unfold rename_modes
    rw [hsplit, rename_validate_append order pre _ hpre]
    simp only [rename_validate]
    rw [if_pos hgt]
  · intro pre post i mapping hsplit hpre hlt
    unfold rename_modes
    rw [hsplit, rename_validate_append order pre _ hpre]
    simp only [rename_validate]
    rw [if_neg (by omega), if_pos hlt]

/-- C8 witness: concrete runs of `rename_modes` at order 2 — a passing
validation including the boundary value 2, a type error, and both value
errors, the latter three leaving the names unchanged. -/
theorem claim_C8_rename_modes_validation_witness :
    rename_validate 2 ([("a", PyVal.vint 0), ("b", .vint 2)].map Prod.snd) = none ∧
    rename_modes 2 [.str "x", .str "y"] [("a", .vother "list")] =
      ([.str "x", .str "y"], some "TypeError: All values of the dictionary should be integers.") ∧
    rename_modes 2 [.str "x", .str "y"] [("a", .vint 0), ("b", .vint 3)] =
      ([.str "x", .str "y"], some "ValueError: All specified modes should not exceed the order of the tensor.") ∧
    rename_modes 2 [.str "x", .str "y"] [("a", .vint 0), ("b", .vint (-1))] =
      ([.str "x", .str "y"], some "ValueError: All specified modes should be non-negative.") := by
  have h := claim_C8_rename_modes_validation 2 [.str "x", .str "y"]
  refine ⟨?_, ?_, ?_, ?_⟩
  · exact h.1 [("a", PyVal.vint 0), ("b", .vint 2)] (by decide)
  · exact h.2.1 [] [] "list" [("a", .vother "list")] (by decide) (by simp)
  · exact h.2.2.1 [.vint 0] [] 3 [("a", .vint 0), ("b", .vint 3)] (by decide)
      (by decide) (by decide)
  · exact h.2.2.2.1 [.vint 0] [] (-1) [("a", .vint 0), ("b", .vint (-1))] (by decide)
      (by decide) (by decide)

/-! Shape evolution of the sequential mode-n product chain used by the CP and
Tucker reconstructions. -/

theorem mode_n_product_shape (t : Tensor) (M : NpArray) (k : Nat) :
    (t.mode_n_product M k).data.shape = t.data.shape.set k (M.shape.getD 0 0) := rfl

/-- The shape produced by `md_chain`, computed on shapes alone. -/
def chain_shape (s : List Nat) : List NpArray → Nat → List Nat
  | [], _ => s
  | f :: fs, k => chain_shape (s.set k (f.shape.getD 0 0)) fs (k + 1)

theorem md_chain_shape : ∀ (fs : List NpArray) (k : Nat) (t : Tensor),
    (md_chain t fs k).data.shape = chain_shape t.data.shape fs k := by
  intro fs
  induction fs with
  | nil => intro k t; rfl
  | cons f fs ih =>
    intro k t
    show (md_chain (t.mode_n_product f k) fs (k + 1)).data.shape = _
    rw [ih (k + 1) (t.mode_n_product f k), mode_n_product_shape]
    rfl

theorem chain_shape_cp (I : Nat → Nat) (R : Nat) :
    ∀ (fs : List NpArray) (k : Nat),
      (∀ j, j < fs.length → (fs.getD j ⟨[], []⟩).shape.getD 0 0 = I (k + j)) →
      chain_shape ((List.range k).map I ++ List.replicate fs.length R) fs k =
        (List.range (k + fs.length)).map I := by
  intro fs
  induction fs with
  | nil => intro k h; simp [chain_shape]
  | cons f fs ih =>
    intro k h
    show chain_shape (((List.range k).map I ++
      List.replicate (fs.length + 1) R).set k (f.shape.getD 0 0)) fs (k + 1) = _
    have hlen : ((List.range k).map I).length = k := by simp
    have hf : f.shape.getD 0 0 = I k := by
      have := h 0 (by simp)
      simpa using this
    have hset : ((List.range k).map I ++ List.replicate (fs.length + 1) R).set k
        (f.shape.getD 0 0) = (List.range (k + 1)).map I ++ List.replicate fs.length R := by
      rw [List.replicate_succ, set_append_cons_at _ _ _ _ k hlen.symm, hf]
      rw [List.range_succ, List.map_append]
      simp
    rw [hset]
    have hrec := ih (k + 1) (fun j hj => by
      have hh := h (j + 1) (by simp only [List.length_cons]; omega)
      rw [List.getD_cons_succ] at hh
      have harith2 : k + (j + 1) = k + 1 + j := by omega
      rw [harith2] at hh
      exact hh)
    rw [hrec]
    have harith : k + 1 + fs.length = k + (fs.length + 1) := by omega
    rw [harith]
    simp only [List.length_cons]

/-- C1: for a CP container with N factor matrices of shapes (I_k, R) and R
core coefficients, `reconstruct` is the super-diagonal core with
`mode_n_product` applied against each factor matrix in turn, modes 0 through
N−1, and the resulting dense tensor has shape (I_0, ..., I_(N-1)). -/
theorem claim_C1_cpd_reconstruct (c : TensorCPD) (N R : Nat) (I : Nat → Nat)
    (hN : c.fmat.length = N) (hR : c.core_values.length = R)
    (hshape : ∀ k, k < N → (c.fmat.getD k ⟨[], []⟩).shape = [I k, R]) :
    c.reconstruct = md_chain (super_diag_tensor_some c.order c.core_values) c.fmat 0 ∧
    c.reconstruct.data.shape = (List.range N).map I := by
  refine ⟨rfl, ?_⟩
  unfold TensorCPD.reconstruct
  rw [md_chain_shape]
  have hcore : c.core.data.shape = List.replicate N R := by
    show (super_diag_core c.order c.core_values).shape = _
    unfold super_diag_core
    simp only [TensorCPD.order, hN, hR]
  rw [hcore]
  have hmain := chain_shape_cp I R c.fmat 0 (fun j hj => by
    rw [hshape j (by omega)]
    simp)
  rw [hN] at hmain
  simpa using hmain

/-- C1 witness: a CP container with factor matrices of shapes (2,1) and
(3,1) and one core coefficient reconstructs to shape (2,3). -/
theorem claim_C1_cpd_reconstruct_witness :
    (TensorCPD.mk [⟨[2, 1], [1, 2]⟩, ⟨[3, 1], [3, 4, 5]⟩] [7]).reconstruct.data.shape = [2, 3] := by
  have h := claim_C1_cpd_reconstruct
    (TensorCPD.mk [⟨[2, 1], [1, 2]⟩, ⟨[3, 1], [3, 4, 5]⟩] [7]) 2 1
    (fun k => if k = 0 then 2 else 3) (by decide) (by decide)
    (by
      intro k hk
      match k with
      | 0 => rfl
      | 1 => rfl
      | n + 2 => omega)
  rw [h.2]
  decide

/-- The matrix-chain contraction loop of the spec (§4.6), stated directly in
terms of a declared boundary-rank sequence `r` and dimension sequence `n`
(1-indexed, `r 0 = r N = 1`) instead of ranks read off the stored core
shapes.  The counter `k` is the 1-based index of the core preceding the one
being processed, so processing core `k+1` reshapes it column-major to
`(r k, r (k+1) * n (k+1))` — the spec's `(rank[k-1], rank[k]*full_shape[k])`
— and reshapes the accumulator to `r k` columns before the product. -/
def tt_chain_spec_loop (r n : Nat → Nat) : NpArray → Nat → List NpArray → NpArray
  | acc, _, [] => acc
  | acc, k, core :: rest =>
    let coreM : NpArray := ⟨[r k, r (k + 1) * n (k + 1)], core.vals⟩
    let accM : NpArray := ⟨[acc.vals.length / r k, r k], acc.vals⟩
    tt_chain_spec_loop r n (matmul accM coreM) (k + 1) rest

/-- The full spec-side chain contraction: start from the first core, process
every subsequent core, and label the result with the target full shape
`(n 1, ..., n N)`. -/
def tt_chain_spec (r n : Nat → Nat) (N : Nat) (cores : List NpArray) : NpArray :=
  ⟨(List.range N).map fun j => n (j + 1),
    (tt_chain_spec_loop r n (cores.headD ⟨[], []⟩) 1 (cores.drop 1)).vals⟩

theorem getD_map_at {α β : Type} (f : α → β) (l : List α) (j : Nat) (d : β)
    (d' : α) (h : j < l.length) : (l.map f).getD j d = f (l.getD j d') := by
  rw [List.getD_eq_getElem _ _ (by simpa using h), List.getElem_map,
    List.getD_eq_getElem _ _ h]

theorem getD_dropLast_at {α : Type} (l : List α) (j : Nat) (d : α)
    (h : j < l.dropLast.length) : l.dropLast.getD j d = l.getD j d := by
  have hj : j < l.length := by
    rw [List.length_dropLast] at h
    omega
  rw [List.getD_eq_getElem _ _ h, List.getElem_dropLast,
    List.getD_eq_getElem _ _ hj]

theorem tt_loops_eq (r n : Nat → Nat) (rank fs : List Nat) :
    ∀ (rest : List NpArray) (i : Nat) (acc : NpArray),
      (∀ j, j < rest.length → rank.getD (i + j) 0 = r (i + j + 1)) →
      (∀ j, j < rest.length → rank.getD (i + j + 1) 0 = r (i + j + 2)) →
      (∀ j, j < rest.length → fs.getD (i + j + 1) 0 = n (i + j + 2)) →
      tt_loop rank fs acc rest i = tt_chain_spec_loop r n acc (i + 1) rest := by
  intro rest
  induction rest with
  | nil => intro i acc _ _ _; rfl
  | cons core rest ih =>
    intro i acc hr1 hr2 hf
    have h0 : rank.getD i 0 = r (i + 1) := by
      have := hr1 0 (by simp)
      simpa using this
    have h1 : rank.getD (i + 1) 0 = r (i + 2) := by
      have := hr2 0 (by simp)
      simpa using this
    have h2 : fs.getD (i + 1) 0 = n (i + 2) := by
      have := hf 0 (by simp)
      simpa using this
    show tt_loop rank fs
        (matmul ⟨[acc.vals.length / rank.getD i 0, rank.getD i 0], acc.vals⟩
          ⟨[rank.getD i 0, rank.getD (i + 1) 0 * fs.getD (i + 1) 0], core.vals⟩)
        rest (i + 1) =
      tt_chain_spec_loop r n
        (matmul ⟨[acc.vals.length / r (i + 1), r (i + 1)], acc.vals⟩
          ⟨[r (i + 1), r (i + 2) * n (i + 2)], core.vals⟩)
        (i + 2) rest
    rw [h0, h1, h2]
    exact ih (i + 1) _
      (fun j hj => by
        have := hr1 (j + 1) (by simp only [List.length_cons]; omega)
        have harith : i + (j + 1) = i + 1 + j := by omega
        rw [harith] at this
        exact this)
      (fun j hj => by
        have := hr2 (j + 1) (by simp only [List.length_cons]; omega)
        have harith : i + (j + 1) = i + 1 + j := by omega
        rw [harith] at this
        exact this)
      (fun j hj => by
        have := hf (j + 1) (by simp only [List.length_cons]; omega)
        have harith : i + (j + 1) = i + 1 + j := by omega
        rw [harith] at this
        exact this)

/-- C2: for a TT container with N cores of shapes (r_k, n_(k+1), r_(k+1)),
boundary ranks 1, and full shape (n_1, ..., n_N), `reconstruct` is exactly
the sequential matrix-chain contraction of the spec — reshape each
subsequent core column-major to (rank[k-1], rank[k]*full_shape[k]), reshape
the accumulator column-major to rank[k-1] columns, multiply, and finally
reshape column-major into the full shape — and the result's shape is the
full shape. -/
theorem claim_C2_tt_reconstruct (t : TensorTT) (N : Nat) (r n : Nat → Nat)
    (hN : t.core_values.length = N) (hN1 : 1 ≤ N)
    (hshapes : ∀ k, k < N →
      (t.core_values.getD k ⟨[], []⟩).shape = [r k, n (k + 1), r (k + 1)])
    (hrN : r N = 1)
    (hfull : t.full_shape = (List.range N).map fun j => n (j + 1)) :
    t.reconstruct.data = tt_chain_spec r n N t.core_values ∧
    t.reconstruct.data.shape = t.full_shape := by
  have hranklen : t.rank.length = N - 1 := by
    simp [TensorTT.rank, List.length_dropLast, hN]
  have hrank : ∀ j, j < N - 1 → t.rank.getD j 0 = r (j + 1) := by
    intro j hj
    have hdl : j < t.core_values.dropLast.length := by
      simp only [List.length_dropLast, hN]; omega
    show (t.core_values.dropLast.map fun c => c.shape.getLast?.getD 0).getD j 0 = _
    rw [getD_map_at _ _ _ _ ⟨[], []⟩ hdl]
    rw [getD_dropLast_at _ _ _ hdl]
    rw [hshapes j (by omega)]
    rfl
  have hrankD : ∀ j, j < N → (t.rank ++ [1]).getD j 0 = r (j + 1) := by
    intro j hj
    by_cases hcase : j < N - 1
    · rw [List.getD_append _ _ _ _ (by omega)]
      exact hrank j hcase
    · have hjeq : j = N - 1 := by omega
      rw [List.getD_append_right _ _ _ _ (by omega)]
      rw [hranklen] at *
      have : j - (N - 1) = 0 := by omega
      rw [this]
      subst hjeq
      have : N - 1 + 1 = N := by omega
      rw [this, hrN]
      rfl
  have hfs : ∀ j, j < N - 1 → t.full_shape.getD (j + 1) 0 = n (j + 2) := by
    intro j hj
    rw [hfull]
    have hlen : j + 1 < ((List.range N).map fun j => n (j + 1)).length := by
      simp; omega
    rw [List.getD_eq_getElem _ _ hlen, List.getElem_map, List.getElem_range]
  have hrest : (t.core_values.drop 1).length = N - 1 := by
    simp [hN]
  have hloop := tt_loops_eq r n (t.rank ++ [1]) t.full_shape
    (t.core_values.drop 1) 0 (t.core_values.headD ⟨[], []⟩)
    (fun j hj => by
      rw [hrest] at hj
      simpa using hrankD j (by omega))
    (fun j hj => by
      rw [hrest] at hj
      simpa using hrankD (j + 1) (by omega))
    (fun j hj => by
      rw [hrest] at hj
      simpa using hfs j (by omega))
  constructor
  · show (⟨t.full_shape,
      (tt_loop (t.rank ++ [1]) t.full_shape (t.core_values.headD ⟨[], []⟩)
        (t.core_values.drop 1) 0).vals⟩ : NpArray) = _
    rw [hloop]
    unfold tt_chain_spec
    rw [hfull]
  · rfl

/-- C2 witness: a 3-core TT container with internal ranks (2,3) and full
shape (2,2,2) reconstructs to the explicit chain contraction. -/
theorem claim_C2_tt_reconstruct_witness :
    (TensorTT.mk
      [⟨[1, 2, 2], [1, 2, 3, 4]⟩,
       ⟨[2, 2, 3], [1, 0, 2, 1, 1, 1, 0, 3, 1, 2, 0, 1]⟩,
       ⟨[3, 2, 1], [1, 2, 3, 4, 5, 6]⟩] [2, 2, 2]).reconstruct.data =
    tt_chain_spec (fun k => [1, 2, 3, 1].getD k 0) (fun _ => 2) 3
      [⟨[1, 2, 2], [1, 2, 3, 4]⟩,
       ⟨[2, 2, 3], [1, 0, 2, 1, 1, 1, 0, 3, 1, 2, 0, 1]⟩,
       ⟨[3, 2, 1], [1, 2, 3, 4, 5, 6]⟩] := by
  have h := claim_C2_tt_reconstruct
    (TensorTT.mk
      [⟨[1, 2, 2], [1, 2, 3, 4]⟩,
       ⟨[2, 2, 3], [1, 0, 2, 1, 1, 1, 0, 3, 1, 2, 0, 1]⟩,
       ⟨[3, 2, 1], [1, 2, 3, 4, 5, 6]⟩] [2, 2, 2]) 3
    (fun k => [1, 2, 3, 1].getD k 0) (fun _ => 2) (by decide) (by decide)
    (by
      intro k hk
      match k with
      | 0 => rfl
      | 1 => rfl
      | 2 => rfl
      | m + 3 => omega)
    (by decide) (by decide)
  exact h.1

/-- C7: on a tensor whose recorded original shape has pairwise-distinct
dimension sizes, unfolding a mode in range keeps the recorded original shape,
collapses the mode names to `[name_of_mode, [remaining names]]`, and a
subsequent fold detects the unfolded mode as the position of the current
leading dimension in the original shape, restores the original shape (and
data), and restores the original mode-name list by re-inserting the row-mode
name at that position. -/
theorem claim_C7_unfold_fold_round_trip (t : Tensor) (mode : Nat)
    (hw : t.data.wf)
    (hshape : t.data.shape = t.orig_shape)
    (hnodup : t.orig_shape.Nodup)
    (hmode : mode < t.orig_shape.length)
    (hnames : t.mode_names.length = t.orig_shape.length) :
    (t.unfold mode).orig_shape = t.orig_shape ∧
    (t.unfold mode).mode_names =
      [t.mode_names.getD mode (.str ""), .grp (t.mode_names.eraseIdx mode)] ∧
    (t.unfold mode).fold = .ok t := by
  refine ⟨rfl, rfl, ?_⟩
  have hmode' : mode < t.data.shape.length := by rw [hshape]; exact hmode
  have hdet : (Hottbox.unfold t.data mode).shape.getD 0 0 = t.orig_shape[mode] := by
    show t.data.shape.getD mode 1 = _
    rw [hshape, List.getD_eq_getElem _ _ hmode]
  show Tensor.fold ⟨Hottbox.unfold t.data mode, t.orig_shape,
    [t.mode_names.getD mode (.str ""), .grp (t.mode_names.eraseIdx mode)]⟩ = .ok t
  unfold Tensor.fold
  simp only [hdet, indexOf?_getElem_nodup hnodup mode hmode]
  show Except.ok ⟨Hottbox.fold (Hottbox.unfold t.data mode) mode t.orig_shape,
    t.orig_shape,
    List.insertIdx mode (t.mode_names.getD mode (.str ""))
      (t.mode_names.eraseIdx mode)⟩ = .ok t
  have hdata : Hottbox.fold (Hottbox.unfold t.data mode) mode t.orig_shape = t.data := by
    rw [← hshape]
    exact fold_unfold t.data mode hw hmode'
  have hnm : List.insertIdx mode (t.mode_names.getD mode (.str ""))
      (t.mode_names.eraseIdx mode) = t.mode_names :=
    insertIdx_eraseIdx_getD (.str "") t.mode_names mode (by omega)
  rw [hdata, hnm]

/-- C7 witness: a 2×3 tensor unfolded along mode 1 and folded back. -/
theorem claim_C7_unfold_fold_round_trip_witness :
    ((Tensor.mk ⟨[2, 3], [1, 2, 3, 4, 5, 6]⟩ [2, 3] [.str "a", .str "b"]).unfold 1).fold =
      .ok (Tensor.mk ⟨[2, 3], [1, 2, 3, 4, 5, 6]⟩ [2, 3] [.str "a", .str "b"]) := by
  exact (claim_C7_unfold_fold_round_trip
    (Tensor.mk ⟨[2, 3], [1, 2, 3, 4, 5, 6]⟩ [2, 3] [.str "a", .str "b"]) 1
    (by decide) (by decide) (by decide) (by decide) (by decide)).2.2

/-! Frame lemmas for the heap layer. -/

theorem getD_set_ne {α : Type} (l : List α) (i j : Nat) (x d : α) (hne : i ≠ j) :
    (l.set i x).getD j d = l.getD j d := by
  rw [List.getD_eq_getElem?_getD, List.getD_eq_getElem?_getD,
    List.getElem?_set_ne hne]

/-- Writing into an appended-then-overwritten fresh cell leaves every older
cell unchanged. -/
theorem getD_append_singleton_set {α : Type} (A : List α) (y z d : α) (r : Nat)
    (hr : r < A.length) :
    ((A ++ [y]).set A.length z).getD r d = A.getD r d := by
  rw [set_append_cons A y z []]
  exact List.getD_append _ _ _ _ hr

theorem getD_append_singleton {α : Type} (A : List α) (y d : α) (r : Nat)
    (hr : r < A.length) : (A ++ [y]).getD r d = A.getD r d :=
  List.getD_append _ _ _ _ hr

/-- C3 counterexample: `copy()` shares the receiver's data array, so writing
into the copy's data array changes the receiver's data, contradicting the
claim that mutating a copy produced by `copy()` never changes the receiver. -/
theorem claim_C3_copy_independence_counterexample :
    ((⟨0, [2], 0⟩ : TensorObj).val
        (Heap.writeArr ⟨[⟨[2], [1, 2]⟩], [[.str "m"]]⟩
          (TensorObj.copy ⟨0, [2], 0⟩).dataRef ⟨[2], [5, 6]⟩)).data ≠
      ((⟨0, [2], 0⟩ : TensorObj).val ⟨[⟨[2], [1, 2]⟩], [[.str "m"]]⟩).data := by
  decide

/-- C3 amended: operations invoked with `in_place=False` rebind the copy's
data to a freshly allocated array (and `unfold`/`fold` also rebind the mode
names to a fresh list), so writing into such a copy's data array — and, for
`unfold`/`fold` copies, renaming the copy's modes — never changes the
receiver's data, shape, or mode names.  `copy()` itself, however, shares both
the data array and the mode-name list with the receiver (so in-place writes
through a plain copy do reach the receiver), and a `mode_n_product` copy
still shares the receiver's mode-name list. -/
theorem claim_C3_copy_independence_amended (h : Heap) (t : TensorObj)
    (hwf : t.wfIn h) :
    t.copy = t ∧
    (∀ (mode : Nat) (B : NpArray) (mapping : List (String × PyVal)),
      (t.unfoldH h mode false).2.dataRef ≠ t.dataRef ∧
      (t.unfoldH h mode false).2.namesRef ≠ t.namesRef ∧
      t.val ((t.unfoldH h mode false).1.writeArr (t.unfoldH h mode false).2.dataRef B) =
        t.val h ∧
      t.val (((t.unfoldH h mode false).2.rename_modesH (t.unfoldH h mode false).1
        mapping).1) = t.val h) ∧
    (∀ (B : NpArray) (mapping : List (String × PyVal)) (h' : Heap) (res : TensorObj),
      t.foldH h false = (h', some res) →
      res.dataRef ≠ t.dataRef ∧
      res.namesRef ≠ t.namesRef ∧
      t.val (h'.writeArr res.dataRef B) = t.val h ∧
      t.val ((res.rename_modesH h' mapping).1) = t.val h) ∧
    (∀ (M : NpArray) (mode : Nat) (B : NpArray),
      (t.mode_n_productH h M mode false).2.dataRef ≠ t.dataRef ∧
      (t.mode_n_productH h M mode false).2.namesRef = t.namesRef ∧
      t.val ((t.mode_n_productH h M mode false).1.writeArr
        (t.mode_n_productH h M mode false).2.dataRef B) = t.val h) := by
  obtain ⟨hd, hn⟩ := hwf
  refine ⟨rfl, ?_, ?_, ?_⟩
  · intro mode B mapping
    refine ⟨?_, ?_, ?_, ?_⟩
    · show h.arrs.length ≠ t.dataRef
      omega
    · show h.lists.length ≠ t.namesRef
      omega
    · show (⟨Heap.arr _ t.dataRef, t.orig_shape, Heap.names _ t.namesRef⟩ : Tensor) =
        ⟨h.arr t.dataRef, t.orig_shape, h.names t.namesRef⟩
      congr 1
      · exact getD_append_singleton_set h.arrs _ B _ t.dataRef hd
      · exact getD_append_singleton h.lists _ _ t.namesRef hn
    · show (⟨Heap.arr _ t.dataRef, t.orig_shape, Heap.names _ t.namesRef⟩ : Tensor) =
        ⟨h.arr t.dataRef, t.orig_shape, h.names t.namesRef⟩
      congr 1
      · exact getD_append_singleton h.arrs _ _ t.dataRef hd
      · exact getD_append_singleton_set h.lists _ _ _ t.namesRef hn
  · intro B mapping h' res heq
    unfold TensorObj.foldH at heq
    cases hmatch : List.indexOf? ((h.arr t.dataRef).shape.getD 0 0) t.orig_shape with
    | none =>
      rw [hmatch] at heq
      simp at heq
    | some mode =>
      rw [hmatch] at heq
      cases hlast : (h.names t.namesRef).getLast? with
      | none =>
        simp [hlast] at heq
      | some mn =>
        cases mn with
        | str s =>
          simp [hlast] at heq
        | grp l =>
          simp only [hlast, Prod.mk.injEq, Option.some.injEq] at heq
          obtain ⟨hh', hres⟩ := heq
          subst hh'
          subst hres
          refine ⟨?_, ?_, ?_, ?_⟩
          · show h.arrs.length ≠ t.dataRef
            omega
          · show h.lists.length ≠ t.namesRef
            omega
          · show (⟨Heap.arr _ t.dataRef, t.orig_shape, Heap.names _ t.namesRef⟩ : Tensor) =
              ⟨h.arr t.dataRef, t.orig_shape, h.names t.namesRef⟩
            congr 1
            · exact getD_append_singleton_set h.arrs _ B _ t.dataRef hd
            · exact getD_append_singleton h.lists _ _ t.namesRef hn
          · show (⟨Heap.arr _ t.dataRef, t.orig_shape, Heap.names _ t.namesRef⟩ : Tensor) =
              ⟨h.arr t.dataRef, t.orig_shape, h.names t.namesRef⟩
            congr 1
            · exact getD_append_singleton h.arrs _ _ t.dataRef hd
            · exact getD_append_singleton_set h.lists _ _ _ t.namesRef hn
  · intro M mode B
    refine ⟨?_, rfl, ?_⟩
    · show h.arrs.length ≠ t.dataRef
      omega
    · show (⟨Heap.arr _ t.dataRef, t.orig_shape, Heap.names _ t.namesRef⟩ : Tensor) =
        ⟨h.arr t.dataRef, t.orig_shape, h.names t.namesRef⟩
      congr 1
      exact getD_append_singleton_set h.arrs _ B _ t.dataRef hd

/-- C3 amended witness: the concrete one-tensor heap of the counterexample,
exercising the unfold copy's independence. -/
theorem claim_C3_copy_independence_amended_witness :
    ((⟨0, [2], 0⟩ : TensorObj).unfoldH ⟨[⟨[2], [1, 2]⟩], [[.str "m"]]⟩ 0 false).2.dataRef ≠ 0 ∧
    ((⟨0, [2], 0⟩ : TensorObj).val
        ((((⟨0, [2], 0⟩ : TensorObj).unfoldH ⟨[⟨[2], [1, 2]⟩], [[.str "m"]]⟩ 0 false).1).writeArr
          (((⟨0, [2], 0⟩ : TensorObj).unfoldH ⟨[⟨[2], [1, 2]⟩], [[.str "m"]]⟩ 0 false).2).dataRef
          ⟨[2], [5, 6]⟩)) =
      (⟨0, [2], 0⟩ : TensorObj).val ⟨[⟨[2], [1, 2]⟩], [[.str "m"]]⟩ := by
  have h := claim_C3_copy_independence_amended ⟨[⟨[2], [1, 2]⟩], [[.str "m"]]⟩
    ⟨0, [2], 0⟩ (by constructor <;> decide)
  have h2 := h.2.1 0 ⟨[2], [5, 6]⟩ []
  exact ⟨h2.1, h2.2.2.1⟩

theorem getD_append_singleton_self {α : Type} (A : List α) (y d : α) :
    (A ++ [y]).getD A.length d = y := by
  rw [List.getD_append_right _ _ _ _ (le_refl _)]
  simp

theorem arr_write_after_alloc (h : Heap) (x B : NpArray) (L : List (List MName)) :
    ∀ r, r < h.arrs.length →
      (Heap.writeArr ⟨h.arrs ++ [x], L⟩ h.arrs.length B).arr r = h.arr r := by
  intro r hr
  show ((h.arrs ++ [x]).set h.arrs.length B).getD r ⟨[], []⟩ = h.arrs.getD r ⟨[], []⟩
  exact getD_append_singleton_set h.arrs x B ⟨[], []⟩ r hr

theorem val_preserved_cpd (h h2 : Heap) (cp : TensorCPDObj)
    (hpres : ∀ r, r < h.arrs.length → h2.arr r = h.arr r)
    (hwf : cp.coreValsRef < h.arrs.length ∧ ∀ r ∈ cp.fmatRefs, r < h.arrs.length) :
    cp.val h2 = cp.val h := by
  unfold TensorCPDObj.val
  congr 1
  · exact List.map_congr_left fun r hr => hpres r (hwf.2 r hr)
  · rw [hpres _ hwf.1]

theorem val_preserved_tkd (h h2 : Heap) (tk : TensorTKDObj)
    (hpres : ∀ r, r < h.arrs.length → h2.arr r = h.arr r)
    (hwf : tk.coreValsRef < h.arrs.length ∧ ∀ r ∈ tk.fmatRefs, r < h.arrs.length) :
    tk.val h2 = tk.val h := by
  unfold TensorTKDObj.val
  congr 1
  · exact List.map_congr_left fun r hr => hpres r (hwf.2 r hr)
  · exact hpres _ hwf.1

theorem val_preserved_tt (h h2 : Heap) (tt : TensorTTObj)
    (hpres : ∀ r, r < h.arrs.length → h2.arr r = h.arr r)
    (hwf : ∀ r ∈ tt.coreRefs, r < h.arrs.length) :
    tt.val h2 = tt.val h := by
  unfold TensorTTObj.val
  congr 1
  exact List.map_congr_left fun r hr => hpres r (hwf r hr)

/-- C4 counterexample: the CP constructor's `fmat.copy()` is a shallow list
copy, so the container aliases the caller's factor-matrix arrays; mutating
the caller's factor array in place changes the container's stored factor
values, contradicting the deep-copy claim. -/
theorem claim_C4_deep_copy_counterexample :
    ((tensorCPD_initH ⟨[⟨[1, 1], [7]⟩, ⟨[1], [1]⟩], []⟩ [0] 1).2.val
        ((tensorCPD_initH ⟨[⟨[1, 1], [7]⟩, ⟨[1], [1]⟩], []⟩ [0] 1).1.writeArr 0
          ⟨[1, 1], [9]⟩)).fmat ≠
      ((tensorCPD_initH ⟨[⟨[1, 1], [7]⟩, ⟨[1], [1]⟩], []⟩ [0] 1).2.val
        (tensorCPD_initH ⟨[⟨[1, 1], [7]⟩, ⟨[1], [1]⟩], []⟩ [0] 1).1).fmat := by
  decide

/-- C4 amended: at construction the CP and Tucker containers copy the factor
LIST but not the factor arrays (the stored list holds the caller's array
objects themselves), and copy the core array into a fresh cell, so mutating
the caller's core array never changes the container while mutating a
caller's factor array does; the TT constructor copies only the core list,
leaving every core array aliased and the heap untouched. -/
theorem claim_C4_constructor_copy_amended (h : Heap) (fmat : List Nat) (cv : Nat)
    (ttcores : List Nat) (fsh : List Nat) (hcv : cv < h.arrs.length) :
    (tensorCPD_initH h fmat cv).2.fmatRefs = fmat ∧
    (tensorCPD_initH h fmat cv).2.coreValsRef = h.arrs.length ∧
    (∀ B : NpArray,
      ((tensorCPD_initH h fmat cv).2.val
        ((tensorCPD_initH h fmat cv).1.writeArr cv B)).core_values = (h.arr cv).vals) ∧
    ((tensorCPD_initH h fmat cv).2.val (tensorCPD_initH h fmat cv).1).core_values =
      (h.arr cv).vals ∧
    (tensorTKD_initH h fmat cv).2.fmatRefs = fmat ∧
    (tensorTKD_initH h fmat cv).2.coreValsRef = h.arrs.length ∧
    (∀ B : NpArray,
      ((tensorTKD_initH h fmat cv).2.val
        ((tensorTKD_initH h fmat cv).1.writeArr cv B)).core_values = h.arr cv) ∧
    (tensorTT_initH h ttcores fsh).2.coreRefs = ttcores ∧
    (tensorTT_initH h ttcores fsh).1 = h := by
  have hfresh : ∀ B : NpArray,
      (Heap.writeArr ⟨h.arrs ++ [h.arr cv], h.lists⟩ cv B).arr h.arrs.length =
        h.arr cv := by
    intro B
    show ((h.arrs ++ [h.arr cv]).set cv B).getD h.arrs.length ⟨[], []⟩ = _
    rw [getD_set_ne _ _ _ _ _ (by omega)]
    exact getD_append_singleton_self h.arrs (h.arr cv) ⟨[], []⟩
  have hplain : (Heap.mk (h.arrs ++ [h.arr cv]) h.lists).arr h.arrs.length = h.arr cv := by
    show (h.arrs ++ [h.arr cv]).getD h.arrs.length ⟨[], []⟩ = _
    exact getD_append_singleton_self h.arrs (h.arr cv) ⟨[], []⟩
  refine ⟨rfl, rfl, ?_, ?_, rfl, rfl, ?_, rfl, rfl⟩
  · intro B
    show ((Heap.writeArr ⟨h.arrs ++ [h.arr cv], h.lists⟩ cv B).arr h.arrs.length).vals = _
    rw [hfresh B]
  · show ((Heap.mk (h.arrs ++ [h.arr cv]) h.lists).arr h.arrs.length).vals = _
    rw [hplain]
  · intro B
    show (Heap.writeArr ⟨h.arrs ++ [h.arr cv], h.lists⟩ cv B).arr h.arrs.length = _
    exact hfresh B

/-- C4 amended witness: the two-array heap of the counterexample. -/
theorem claim_C4_constructor_copy_amended_witness :
    (tensorCPD_initH ⟨[⟨[1, 1], [7]⟩, ⟨[1], [1]⟩], []⟩ [0] 1).2.fmatRefs = [0] ∧
    ((tensorCPD_initH ⟨[⟨[1, 1], [7]⟩, ⟨[1], [1]⟩], []⟩ [0] 1).2.val
      ((tensorCPD_initH ⟨[⟨[1, 1], [7]⟩, ⟨[1], [1]⟩], []⟩ [0] 1).1.writeArr 1
        ⟨[1], [5]⟩)).core_values = [1] := by
  have h := claim_C4_constructor_copy_amended ⟨[⟨[1, 1], [7]⟩, ⟨[1], [1]⟩], []⟩
    [0] 1 [] [] (by decide)
  exact ⟨h.1, h.2.2.1 ⟨[1], [5]⟩⟩

/-- C10: the dense tensors returned by the core accessors wrap fresh copies
made by the `Tensor` constructor, so writing into a returned tensor's data
array never changes the container's stored values, nor therefore the result
of any later `core` or `reconstruct` call. -/
theorem claim_C10_core_accessors_fresh (h : Heap) (cp : TensorCPDObj)
    (tk : TensorTKDObj) (tt : TensorTTObj)
    (hcp : cp.coreValsRef < h.arrs.length ∧ ∀ r ∈ cp.fmatRefs, r < h.arrs.length)
    (htk : tk.coreValsRef < h.arrs.length ∧ ∀ r ∈ tk.fmatRefs, r < h.arrs.length)
    (htt : ∀ r ∈ tt.coreRefs, r < h.arrs.length) :
    (∀ B : NpArray,
      cp.val ((cp.coreH h).1.writeArr (cp.coreH h).2.dataRef B) = cp.val h ∧
      (cp.val ((cp.coreH h).1.writeArr (cp.coreH h).2.dataRef B)).reconstruct =
        (cp.val h).reconstruct) ∧
    (∀ B : NpArray,
      tk.val ((tk.coreH h).1.writeArr (tk.coreH h).2.dataRef B) = tk.val h ∧
      (tk.val ((tk.coreH h).1.writeArr (tk.coreH h).2.dataRef B)).reconstruct =
        (tk.val h).reconstruct) ∧
    (∀ (i : Nat) (B : NpArray),
      tt.val ((tt.coreH h i).1.writeArr (tt.coreH h i).2.dataRef B) = tt.val h ∧
      (tt.val ((tt.coreH h i).1.writeArr (tt.coreH h i).2.dataRef B)).reconstruct =
        (tt.val h).reconstruct) := by
  refine ⟨?_, ?_, ?_⟩
  · intro B
    have hval : cp.val ((cp.coreH h).1.writeArr (cp.coreH h).2.dataRef B) = cp.val h :=
      val_preserved_cpd h _ cp (arr_write_after_alloc h _ B _) hcp
    exact ⟨hval, by rw [hval]⟩
  · intro B
    have hval : tk.val ((tk.coreH h).1.writeArr (tk.coreH h).2.dataRef B) = tk.val h :=
      val_preserved_tkd h _ tk (arr_write_after_alloc h _ B _) htk
    exact ⟨hval, by rw [hval]⟩
  · intro i B
    have hval : tt.val ((tt.coreH h i).1.writeArr (tt.coreH h i).2.dataRef B) = tt.val h :=
      val_preserved_tt h _ tt (arr_write_after_alloc h _ B _) htt
    exact ⟨hval, by rw [hval]⟩

/-- C10 witness: a one-core Tucker container on a concrete heap. -/
theorem claim_C10_core_accessors_fresh_witness :
    (TensorTKDObj.mk [0] 1).val
      (((TensorTKDObj.mk [0] 1).coreH ⟨[⟨[1, 1], [7]⟩, ⟨[1], [1]⟩], []⟩).1.writeArr
        ((TensorTKDObj.mk [0] 1).coreH ⟨[⟨[1, 1], [7]⟩, ⟨[1], [1]⟩], []⟩).2.dataRef
        ⟨[1], [9]⟩) =
    (TensorTKDObj.mk [0] 1).val ⟨[⟨[1, 1], [7]⟩, ⟨[1], [1]⟩], []⟩ := by
  have h := claim_C10_core_accessors_fresh ⟨[⟨[1, 1], [7]⟩, ⟨[1], [1]⟩], []⟩
    ⟨[0], 1⟩ ⟨[0], 1⟩ ⟨[0, 1], [1]⟩
    (by exact ⟨by decide, by decide⟩)
    (by exact ⟨by decide, by decide⟩)
    (by decide)
  exact (h.2.1 ⟨[1], [9]⟩).1

end Hottbox

